import Mathlib

/-!
# Verification of the GCS source pipeline (`pkg/sources/gcs/gcs.go`)

This file gives a shallow embedding of the enumeration → dedupe →
concurrent-process → checkpoint pipeline of the GCS source and proves the
specified properties about it.

Modelling conventions:

* Go strings are lists of characters (`Str`).
* Concurrency: the control loop (`Source.Chunks`) dequeues object
  descriptors and spawns one goroutine per uncached object; each
  goroutine's externally visible effects (chunk sends, and the
  mutex-protected `setProgress` block) are modelled as atomic events.  A
  run is a sequence of such events; nondeterminism of the collaborators
  (disk-buffer reader, handler, channel/cancellation race) is supplied by
  a per-task oracle.
* Machine integers (`int32` counters, `int64` percent) are modelled as
  `ℕ`/`ℤ`; realistic object counts are far below `2^31`, so wraparound is
  outside the modelled range.
* Go `float64` arithmetic is modelled exactly: `fl64` rounds a rational
  to the nearest binary64 value (round-to-nearest, ties-to-even).  The
  values occurring here (counts below `2^53` and percentages) are all
  nonnegative and well inside the binary64 exponent range, so neither
  overflow, subnormals nor negatives need to be represented; `fl64` maps
  nonpositive inputs to 0.
-/

namespace GCSSpec

/-- Go strings, modelled as lists of characters. -/
abbrev Str := List Char

/-! ## Binary64 arithmetic model -/

/-- Round a rational to an integer: round to nearest, ties to even
(the IEEE 754 default rounding attribute). -/
def rhe (q : ℚ) : ℤ :=
  if q - ⌊q⌋ < 1/2 then ⌊q⌋
  else if 1/2 < q - ⌊q⌋ then ⌊q⌋ + 1
  else if ⌊q⌋ % 2 = 0 then ⌊q⌋ else ⌊q⌋ + 1

/-- `fl64 q` is `q` rounded to the nearest binary64 value (53 significant
bits, round-to-nearest ties-to-even), for positive finite values inside
the normal exponent range — the only values arising in this code.
Nonpositive inputs (only 0 occurs) are mapped to 0. -/
def fl64 (q : ℚ) : ℚ :=
  if q ≤ 0 then 0
  else (rhe (q * 2 ^ ((52 : ℤ) - Int.log 2 q)) : ℚ) * 2 ^ (Int.log 2 q - 52)

/-- Correctly rounded binary64 division (both arguments already
binary64 values in use). -/
def flDiv (a b : ℚ) : ℚ := fl64 (a / b)

/-- Correctly rounded binary64 multiplication. -/
def flMul (a b : ℚ) : ℚ := fl64 (a * b)

/-- Go's `float64(n)` conversion of a nonnegative integer. -/
def flOfNat (n : ℕ) : ℚ := fl64 (n : ℚ)

/-- Model of the Go expression
`int64(float64(completed) / float64(total) * 100)` (gcs.go:307):
binary64 division, binary64 multiplication by 100, truncation toward zero
(equal to `⌊·⌋` as the value is nonnegative). -/
def goPct (completed total : ℕ) : ℤ :=
  ⌊flMul (flDiv (flOfNat completed) (flOfNat total)) (flOfNat 100)⌋

/-! ## Strings: split and join on the `","` delimiter -/

/-- Go `strings.Split(s, ",")` on the character-list model (as used by
`setupCache`, gcs.go:288). -/
def splitOnComma : Str → List Str
  | [] => [[]]
  | c :: rest =>
    if c = ',' then [] :: splitOnComma rest
    else
      match splitOnComma rest with
      | [] => [[c]]
      | a :: tl => (c :: a) :: tl

/-- Go `strings.Join(elems, ",")`; this is how the cache `Contents()`
renders the key set as the delimited snapshot string (modelled from the
spec, §4.1: "renders the key set as a delimited string"). -/
def joinComma : List Str → Str
  | [] => []
  | [x] => x
  | x :: xs => x ++ ',' :: joinComma xs

/-! ## The resumable cache -/

/-- Modelled from the spec: the in-memory cache (`pkg/cache/memory`, not
in the repository slice) maps object names to a sentinel value; presence
is the signal and insertion is idempotent (spec §3, ResumableCache).  The
key set is represented as an insertion-ordered duplicate-free list;
`cacheSet` inserts a key. -/
def cacheSet (ks : List Str) (k : Str) : List Str :=
  if k ∈ ks then ks else ks ++ [k]

/-- Modelled from the spec: `exists(key)` is key-set membership. -/
def cacheExists (ks : List Str) (k : Str) : Bool := decide (k ∈ ks)

/-- Modelled from the spec: `Count()` is the number of keys. -/
def cacheCount (ks : List Str) : ℕ := ks.length

/-- Modelled from the spec: `Contents()` renders the key set as the
`","`-delimited snapshot string (spec §4.1). -/
def cacheContents (ks : List Str) : Str := joinComma ks

/-- gcs.go:31. -/
def defaultCachePersistIncrement : ℕ := 2500

/-- `persistableCache.Set` (gcs.go:88-93) together with `shouldPersist`
(gcs.go:95-100): insert the key, then, if the key count is divisible by
the persist increment, publish `Contents()` into
`Progress.EncodedResumeInfo`.  Returns the new key set and the (possibly
updated) resume string. -/
def pcSet (increment : ℕ) (ks : List Str) (resumeInfo : Str) (key : Str) :
    List Str × Str :=
  let ks' := cacheSet ks key
  if cacheCount ks' % increment = 0 then (ks', cacheContents ks')
  else (ks', resumeInfo)

/-- `Source.setupCache` (gcs.go:285-296): when `EncodedResumeInfo` is
nonempty the cache is seeded with the keys obtained by splitting it on
`","` (`memory.NewWithData`), otherwise it starts empty. -/
def setupCache (encodedResumeInfo : Str) : List Str :=
  if encodedResumeInfo = [] then []
  else (splitOnComma encodedResumeInfo).foldl cacheSet []

/-! ## Data model and the per-object task -/

/-- One enumerated GCS object (`object` lives in the manager file outside
the slice; fields as used by gcs.go:316-336, modelled from spec §3
ObjectDescriptor).  `createdAt` holds the Unix-seconds value
(`o.createdAt.Unix()`), `updatedAt` the rendered update time
(`o.updatedAt.String()`), `content` the byte stream. -/
structure object where
  name : Str
  bucket : Str
  link : Str
  owner : Str
  contentType : Str
  acl : List Str
  createdAt : ℤ
  updatedAt : Str
  content : List ℕ
  deriving DecidableEq

/-- `strconv.FormatInt(i, 10)`. -/
def formatInt (i : ℤ) : Str := i.repr.data

/-- GCS chunk metadata (`source_metadatapb.GCS` as filled at
gcs.go:322-335). -/
structure MetaDataGCS where
  bucket : Str
  filename : Str
  link : Str
  email : Str
  contentType : Str
  acls : List Str
  createdAt : Str
  updatedAt : Str
  deriving DecidableEq

/-- `sources.Chunk` as populated by this source (the constant
`SourceType` tag is omitted: it is the same for every chunk). -/
structure Chunk where
  sourceName : Str
  sourceID : ℤ
  verify : Bool
  meta : MetaDataGCS
  data : List ℕ
  deriving DecidableEq

/-- Per-run configuration: the source identity fields, the enumeration
statistics denominator (`s.stats.numObjects`, gcs.go:233-241), and
whether the run-scoped context is cancelled. -/
structure RunCfg where
  sourceName : Str
  sourceID : ℤ
  verify : Bool
  total : ℕ
  cancelled : Bool
  deriving DecidableEq

/-- Nondeterminism of one object task's collaborators:
`readerOk` — `diskbufferreader.New` succeeds (gcs.go:360);
`handled` — `handlers.HandleFile` returns true (gcs.go:366);
`handlerData` — the payloads the handler itself emits on the chunk
channel when it handles the file;
`resetOk` — `reader.Reset()` succeeds (gcs.go:371);
`readOk` — `io.ReadAll` succeeds (gcs.go:376);
`sendChoice` — when the run is cancelled, the `select` at gcs.go:350-354
chooses uniformly among ready cases: `true` means the channel send was
ready and chosen, `false` that the cancellation branch was taken. -/
structure TaskOracle where
  readerOk : Bool
  handled : Bool
  handlerData : List (List ℕ)
  resetOk : Bool
  readOk : Bool
  sendChoice : Bool
  deriving DecidableEq

/-- Per-object error taxonomy of `processObject`/`readObjectData`. -/
inductive ProcErr where
  | readerErr
  | resetErr
  | readErr
  | ctxCancelled
  deriving DecidableEq

deriving instance DecidableEq for Except

/-- The chunk skeleton built at gcs.go:317-336. -/
def chunkSkel (cfg : RunCfg) (o : object) : Chunk :=
  { sourceName := cfg.sourceName
    sourceID := cfg.sourceID
    verify := cfg.verify
    meta :=
      { bucket := o.bucket
        filename := o.name
        link := o.link
        email := o.owner
        contentType := o.contentType
        acls := o.acl
        createdAt := formatInt o.createdAt
        updatedAt := o.updatedAt }
    data := [] }

/-- `Source.readObjectData` (gcs.go:359-382): open the buffered reader,
offer it to the handler — which, when it handles the file, emits its own
chunks (copies of the skeleton with its payloads) and makes the function
return `none` — otherwise rewind (`Reset`), switch to straight reads
(`Stop`) and read everything.  Returns the chunks the handler sent and
the optional raw payload. -/
def readObjectData (cfg : RunCfg) (oc : TaskOracle) (o : object) :
    Except ProcErr (List Chunk × Option (List ℕ)) :=
  if oc.readerOk = false then .error .readerErr
  else if oc.handled = true then
    .ok (oc.handlerData.map (fun d => { chunkSkel cfg o with data := d }), none)
  else if oc.resetOk = false then .error .resetErr
  else if oc.readOk = false then .error .readErr
  else .ok ([], some o.content)

/-- `Source.processObject` (gcs.go:316-357): build the skeleton, read the
object data; a `none` payload (handled) is success with no raw chunk;
otherwise the completed chunk is sent on the chunk channel unless the
`select` (gcs.go:350-354) takes the cancellation branch.  Returns the
chunks the task sent on `chunksCh`, in order. -/
def processObject (cfg : RunCfg) (oc : TaskOracle) (o : object) :
    Except ProcErr (List Chunk) :=
  match readObjectData cfg oc o with
  | .error e => .error e
  | .ok (emits, none) => .ok emits
  | .ok (emits, some data) =>
    if cfg.cancelled = true ∧ oc.sendChoice = false then .error .ctxCancelled
    else .ok (emits ++ [{ chunkSkel cfg o with data := data }])

/-! ## The control loop -/

/-- `sources.Progress` together with the run-local pieces of
`Source.Chunks`: the cache key set, the chunks sent on `chunksCh` (in
order) and the names of objects for which a goroutine was spawned.
The `int32`/`int64` progress fields are modelled as `ℕ`/`ℤ`. -/
structure RunState where
  sectionsCompleted : ℕ
  sectionsRemaining : ℕ
  percentComplete : ℤ
  message : Str
  encodedResumeInfo : Str
  cacheKeys : List Str
  emitted : List Chunk
  spawned : List Str
  deriving DecidableEq

/-- One value received from the object channel: either an `object`
bundled with its task's collaborator oracle, or a value of an unexpected
type (gcs.go:257-261 logs and skips those). -/
inductive RawElem where
  | obj (o : object) (oc : TaskOracle)
  | unknown (typeName : Str)
  deriving DecidableEq

/-- `Source.setProgress` (gcs.go:298-308).  The whole block runs under
`s.mu` (gcs.go:299-300) and is therefore one atomic step: increment
`SectionsCompleted`, insert the name through the persistable cache
(possibly refreshing the snapshot), set `SectionsRemaining` to the
enumerated total, and recompute `PercentComplete` with binary64
arithmetic. -/
def setProgress (increment : ℕ) (cfg : RunCfg) (objName : Str)
    (st : RunState) : RunState :=
  let completed := st.sectionsCompleted + 1
  let p := pcSet increment st.cacheKeys st.encodedResumeInfo objName
  { st with
    sectionsCompleted := completed
    cacheKeys := p.1
    encodedResumeInfo := p.2
    sectionsRemaining := cfg.total
    percentComplete := goPct completed cfg.total }

/-- One iteration of the control loop of `Source.Chunks`
(gcs.go:255-278), with the spawned goroutine's effects (the chunk sends
and the lock-protected `setProgress`) inlined as atomic events:
non-`object` values are skipped, cached names are skipped, otherwise a
task is spawned; on error the task only logs and returns
(gcs.go:272-275), on success its chunks are appended and progress is
set. -/
def chunkStep (increment : ℕ) (cfg : RunCfg) (st : RunState)
    (e : RawElem) : RunState :=
  match e with
  | .unknown _ => st
  | .obj o oc =>
    if cacheExists st.cacheKeys o.name then st
    else
      let st1 := { st with spawned := st.spawned ++ [o.name] }
      match processObject cfg oc o with
      | .error _ => st1
      | .ok emits =>
        setProgress increment cfg o.name
          { st1 with emitted := st1.emitted ++ emits }

/-- `Source.completeProgress` (gcs.go:310-314): the final message, which
renders `s.stats.numObjects` in decimal. -/
def completeMsg (total : ℕ) : Str :=
  "GCS source finished processing ".data ++ Nat.toDigits 10 total
    ++ " objects".data

/-- `Source.Chunks` (gcs.go:244-283): rebuild the cache from any prior
resume snapshot, announce the starting message, fold the object sequence
through the control loop (the `wg.Wait()` at gcs.go:279 joins all tasks,
so in this sequential model every spawned task's effects are folded in
before the return), then set the completion message.  `p0` carries the
`Progress` the source holds when the run starts. -/
def sChunks (cfg : RunCfg) (p0 : RunState) (elems : List RawElem) :
    RunState :=
  let st0 := { p0 with
    cacheKeys := setupCache p0.encodedResumeInfo
    message := "starting to process objects...".data
    emitted := []
    spawned := [] }
  let st1 := elems.foldl (chunkStep defaultCachePersistIncrement cfg) st0
  { st1 with message := completeMsg cfg.total }

/-- The state `Source.Chunks` folds from: the carried `Progress` with the
cache rebuilt from the resume snapshot and the starting message set
(gcs.go:245-252). -/
def initState (p0 : RunState) : RunState :=
  { p0 with
    cacheKeys := setupCache p0.encodedResumeInfo
    message := "starting to process objects...".data
    emitted := []
    spawned := [] }

/-- The control loop fold; `runFold cfg st (elems.take i)` is the state
at the i-th observation point of a run. -/
def runFold (cfg : RunCfg) (st : RunState) (elems : List RawElem) :
    RunState :=
  elems.foldl (chunkStep defaultCachePersistIncrement cfg) st

/-- A set of concurrent task completions applied in some interleaving
order: each element is one lock-protected `setProgress` transaction
(gcs.go:298-308), atomic because the whole block holds `s.mu`. -/
def applyCompletions (increment : ℕ) (cfg : RunCfg) (st : RunState)
    (names : List Str) : RunState :=
  names.foldl (fun s n => setProgress increment cfg n s) st

/-- Successive insertions into the persistable cache: `p` is the (key
set, published snapshot) pair. -/
def pcSetAll (increment : ℕ) (p : List Str × Str) (keys : List Str) :
    List Str × Str :=
  keys.foldl (fun p k => pcSet increment p.1 p.2 k) p

/-- Mutual consistency of the shared progress state: the percent equals
the binary64 percentage of the completed count, and the published
snapshot is either still the initial string `r0` or renders a key set of
checkpoint size that is contained in the current cache key set. -/
def consistentWith (increment : ℕ) (cfg : RunCfg) (r0 : Str)
    (st : RunState) : Prop :=
  st.percentComplete = goPct st.sectionsCompleted cfg.total ∧
  (st.encodedResumeInfo = r0 ∨
    ∃ ks, (∀ x ∈ ks, x ∈ st.cacheKeys) ∧
      cacheCount ks % increment = 0 ∧ st.encodedResumeInfo = cacheContents ks)


/-- An object with the given name and empty metadata/content (used in
concrete runs). -/
def mkObj (n : Str) : object := ⟨n, [], [], [], [], [], 0, [], []⟩

/-- An all-success task oracle: reader, handler pass-through, reset and
read all succeed, and the channel send is ready. -/
def okOracle : TaskOracle := ⟨true, false, [], true, true, true⟩

/-- Twenty-nine distinct object names. -/
def cexNames : List Str := (List.range 29).map (fun i => Nat.toDigits 10 i)

/-- A fresh `Progress`/run state: nothing completed, no resume data. -/
def freshP0 : RunState := ⟨0, 0, 0, [], [], [], [], []⟩

/-! ## Lemmas -/

lemma mem_cacheSet {ks : List Str} {k x : Str} :
    x ∈ cacheSet ks k ↔ x ∈ ks ∨ x = k := by
  unfold cacheSet
  split
  · rename_i hk
    constructor
    · exact fun h => Or.inl h
    · rintro (h | rfl)
      · exact h
      · exact hk
  · simp

lemma mem_foldl_cacheSet {l : List Str} {acc : List Str} {x : Str} :
    x ∈ l.foldl cacheSet acc ↔ x ∈ acc ∨ x ∈ l := by
  induction l generalizing acc with
  | nil => simp
  | cons a tl ih =>
    simp only [List.foldl_cons, ih, mem_cacheSet, List.mem_cons]
    tauto

lemma cacheExists_iff {ks : List Str} {k : Str} :
    cacheExists ks k = true ↔ k ∈ ks := by
  simp [cacheExists]

lemma floor_le_rhe (q : ℚ) : ⌊q⌋ ≤ rhe q := by
  unfold rhe
  split
  · exact le_refl _
  · split
    · omega
    · split <;> omega

lemma rhe_le_ceil (q : ℚ) : rhe q ≤ ⌈q⌉ := by
  have h1 : ⌊q⌋ ≤ ⌈q⌉ := Int.floor_le_ceil q
  unfold rhe
  split
  · exact h1
  · rename_i hlt
    have hlt2 : (⌊q⌋ : ℚ) < q := by
      have h : (1 : ℚ)/2 ≤ q - ⌊q⌋ := le_of_not_lt hlt
      linarith
    have h2 : ⌊q⌋ + 1 ≤ ⌈q⌉ := Int.add_one_le_ceil_iff.mpr hlt2
    split
    · exact h2
    · split <;> omega

lemma rhe_intCast (m : ℤ) : rhe (m : ℚ) = m := by
  unfold rhe
  rw [Int.floor_intCast]
  simp

lemma rhe_nonneg {q : ℚ} (h : 0 ≤ q) : 0 ≤ rhe q := by
  have hf : (0 : ℤ) ≤ ⌊q⌋ := Int.floor_nonneg.mpr h
  unfold rhe
  split
  · exact hf
  · split
    · omega
    · split <;> omega

lemma fl64_nonpos {q : ℚ} (h : q ≤ 0) : fl64 q = 0 := by
  unfold fl64; simp [h]

lemma fl64_nonneg (q : ℚ) : 0 ≤ fl64 q := by
  unfold fl64
  split
  · exact le_refl 0
  · rename_i hq
    have hq' : 0 < q := lt_of_not_le hq
    have h2 : (0 : ℚ) < 2 := by norm_num
    apply mul_nonneg
    · exact_mod_cast rhe_nonneg (mul_nonneg hq'.le (zpow_pos h2 _).le)
    · exact (zpow_pos h2 _).le

lemma fl64_le_zpow {q : ℚ} (hq : 0 < q) :
    fl64 q ≤ 2 ^ (Int.log 2 q + 1) := by
  unfold fl64
  rw [if_neg (not_le.mpr hq)]
  set e := Int.log 2 q with he
  have h2 : (0 : ℚ) < 2 := by norm_num
  have h2' : (2 : ℚ) ≠ 0 := by norm_num
  have hlt : q < (2 : ℚ) ^ (e + 1) := by
    have h := Int.lt_zpow_succ_log_self (b := 2) (by norm_num) q
    simpa [he] using h
  have hslt : q * (2 : ℚ) ^ ((52 : ℤ) - e) < 2 ^ (53 : ℤ) := by
    calc q * (2 : ℚ) ^ ((52 : ℤ) - e)
        < 2 ^ (e + 1) * 2 ^ ((52 : ℤ) - e) :=
          mul_lt_mul_of_pos_right hlt (zpow_pos h2 _)
      _ = 2 ^ (53 : ℤ) := by
          rw [← zpow_add₀ h2']
          congr 1
          ring
  have hceil : rhe (q * 2 ^ ((52 : ℤ) - e)) ≤ 2 ^ 53 := by
    calc rhe (q * 2 ^ ((52 : ℤ) - e))
        ≤ ⌈q * 2 ^ ((52 : ℤ) - e)⌉ := rhe_le_ceil _
      _ ≤ 2 ^ 53 := by
          rw [Int.ceil_le]
          push_cast
          calc q * (2 : ℚ) ^ ((52 : ℤ) - e) ≤ 2 ^ (53 : ℤ) := hslt.le
            _ = (2 : ℚ) ^ (53 : ℕ) := by
                rw [show ((53 : ℤ)) = ((53 : ℕ) : ℤ) by norm_num, zpow_natCast]
  calc (rhe (q * 2 ^ ((52 : ℤ) - e)) : ℚ) * 2 ^ (e - 52)
      ≤ ((2 ^ 53 : ℤ) : ℚ) * 2 ^ (e - 52) := by
        apply mul_le_mul_of_nonneg_right _ (zpow_pos h2 _).le
        exact_mod_cast hceil
    _ = 2 ^ (e + 1) := by
        have hc : ((2 ^ 53 : ℤ) : ℚ) = (2 : ℚ) ^ ((53 : ℤ)) := by
          rw [show ((53 : ℤ)) = ((53 : ℕ) : ℤ) by norm_num, zpow_natCast]
          push_cast
          ring
        rw [hc, ← zpow_add₀ h2']
        congr 1
        ring

lemma fl64_le_one {q : ℚ} (h1 : q ≤ 1) : fl64 q ≤ 1 := by
  rcases le_or_lt q 0 with h0 | h0
  · rw [fl64_nonpos h0]; norm_num
  rcases eq_or_lt_of_le h1 with rfl | hlt
  · show fl64 1 ≤ 1
    norm_num [fl64, rhe, Int.log]
  · have he : Int.log 2 q < 0 := by
      have h := (Int.lt_zpow_iff_log_lt (b := 2) (x := 0) (by norm_num) h0).mp
        (by simpa using hlt)
      simpa using h
    calc fl64 q ≤ 2 ^ (Int.log 2 q + 1) := fl64_le_zpow h0
      _ ≤ 1 := zpow_le_one_of_nonpos₀ (by norm_num) (by omega)

lemma fl64_le_hundred {q : ℚ} (h1 : q ≤ 100) : fl64 q ≤ 100 := by
  rcases le_or_lt q 0 with h0 | h0
  · rw [fl64_nonpos h0]; norm_num
  have h2 : (0 : ℚ) < 2 := by norm_num
  have h2' : (2 : ℚ) ≠ 0 := by norm_num
  have h128 : q < (2 : ℚ) ^ (7 : ℤ) := by
    have : ((2 : ℚ) ^ (7 : ℤ)) = 128 := by
      rw [show ((7 : ℤ)) = ((7 : ℕ) : ℤ) by norm_num, zpow_natCast]
      norm_num
    rw [this]; linarith
  have he7 : Int.log 2 q < 7 := by
    have h := (Int.lt_zpow_iff_log_lt (b := 2) (x := 7) (by norm_num) h0).mp
      (by simpa using h128)
    simpa using h
  rcases lt_or_le (Int.log 2 q) 6 with h6 | h6
  · calc fl64 q ≤ 2 ^ (Int.log 2 q + 1) := fl64_le_zpow h0
      _ ≤ 2 ^ (6 : ℤ) := zpow_le_zpow_right₀ (by norm_num) (by omega)
      _ ≤ 100 := by
          rw [show ((6 : ℤ)) = ((6 : ℕ) : ℤ) by norm_num, zpow_natCast]
          norm_num
  · have he : Int.log 2 q = 6 := by omega
    unfold fl64
    rw [if_neg (not_le.mpr h0), he]
    have hbound : q * (2 : ℚ) ^ ((52 : ℤ) - 6) ≤ ((100 * 2 ^ 46 : ℤ) : ℚ) := by
      have h46 : ((52 : ℤ) - 6) = ((46 : ℕ) : ℤ) := by norm_num
      rw [h46, zpow_natCast]
      push_cast
      nlinarith [pow_pos h2 46]
    have hceil : rhe (q * 2 ^ ((52 : ℤ) - 6)) ≤ 100 * 2 ^ 46 := by
      calc rhe (q * 2 ^ ((52 : ℤ) - 6))
          ≤ ⌈q * 2 ^ ((52 : ℤ) - 6)⌉ := rhe_le_ceil _
        _ ≤ 100 * 2 ^ 46 := Int.ceil_le.mpr hbound
    calc (rhe (q * 2 ^ ((52 : ℤ) - 6)) : ℚ) * 2 ^ ((6 : ℤ) - 52)
        ≤ ((100 * 2 ^ 46 : ℤ) : ℚ) * 2 ^ ((6 : ℤ) - 52) := by
          apply mul_le_mul_of_nonneg_right _ (zpow_pos h2 _).le
          exact_mod_cast hceil
      _ = 100 := by
          have h46 : ((6 : ℤ) - 52) = -((46 : ℕ) : ℤ) := by norm_num
          rw [h46, zpow_neg, zpow_natCast]
          push_cast
          norm_num

lemma fl64_natCast (n : ℕ) (hn : n < 2 ^ 53) : fl64 (n : ℚ) = n := by
  rcases Nat.eq_zero_or_pos n with rfl | hpos
  · simp [fl64]
  have h0 : (0 : ℚ) < n := by exact_mod_cast hpos
  have h2' : (2 : ℚ) ≠ 0 := by norm_num
  have hle : Int.log 2 (n : ℚ) ≤ 52 := by
    have hlt : (n : ℚ) < (2 : ℚ) ^ (53 : ℤ) := by
      rw [show ((53 : ℤ)) = ((53 : ℕ) : ℤ) by norm_num, zpow_natCast]
      exact_mod_cast hn
    have h := (Int.lt_zpow_iff_log_lt (b := 2) (x := 53) (by norm_num) h0).mp
      (by simpa using hlt)
    omega
  have hge : 0 ≤ Int.log 2 (n : ℚ) := by
    have h1n : (1 : ℚ) ≤ n := by exact_mod_cast hpos
    exact (Int.zpow_le_iff_le_log (b := 2) (x := 0) (by norm_num) h0).mp
      (by simpa using h1n)
  set e := Int.log 2 (n : ℚ) with he
  set k : ℕ := (52 - e).toNat with hk
  have hk' : ((52 : ℤ) - e) = (k : ℤ) := by omega
  have hs : (n : ℚ) * 2 ^ ((52 : ℤ) - e) = (((n * 2 ^ k : ℕ) : ℤ) : ℚ) := by
    rw [hk', zpow_natCast]
    push_cast
    ring
  unfold fl64
  rw [if_neg (not_le.mpr h0), ← he, hs, rhe_intCast]
  push_cast
  rw [mul_assoc, show ((2 : ℚ) ^ k) = (2 : ℚ) ^ ((k : ℤ)) by rw [zpow_natCast],
      ← zpow_add₀ h2', show ((k : ℤ) + (e - 52)) = 0 by omega]
  simp

lemma goPct_le_100 {c t : ℕ} (hct : c ≤ t) (hbig : t < 2 ^ 53) :
    goPct c t ≤ 100 := by
  unfold goPct flMul flDiv flOfNat
  rw [fl64_natCast c (lt_of_le_of_lt hct hbig), fl64_natCast t hbig,
      fl64_natCast 100 (by norm_num)]
  rcases Nat.eq_zero_or_pos t with rfl | ht
  · have hc : c = 0 := by omega
    subst hc
    norm_num [fl64_nonpos]
  have htq : (0 : ℚ) < t := by exact_mod_cast ht
  have hx1 : fl64 ((c : ℚ) / t) ≤ 1 :=
    fl64_le_one (by
      rw [div_le_one htq]
      exact_mod_cast hct)
  have hx0 : 0 ≤ fl64 ((c : ℚ) / t) := fl64_nonneg _
  have h100 : fl64 (fl64 ((c : ℚ) / t) * 100) ≤ 100 :=
    fl64_le_hundred (by nlinarith)
  calc ⌊fl64 (fl64 ((c : ℚ) / t) * 100)⌋ ≤ ⌊(100 : ℚ)⌋ := Int.floor_mono h100
    _ = 100 := by norm_num

lemma goPct_zero_left (t : ℕ) : goPct 0 t = 0 := by
  unfold goPct flMul flDiv flOfNat
  norm_num [fl64_nonpos]

/-- Characterization of `Int.log 2` used to evaluate `fl64` at concrete
rationals (the kernel cannot reduce `Int.log`). -/
lemma Int_log_eq {q : ℚ} {e : ℤ} (h0 : 0 < q) (h1 : (2 : ℚ) ^ e ≤ q)
    (h2 : q < (2 : ℚ) ^ (e + 1)) : Int.log 2 q = e := by
  have ha := (Int.zpow_le_iff_le_log (b := 2) (x := e) (by norm_num) h0).mp
    (by simpa using h1)
  have hb := (Int.lt_zpow_iff_log_lt (b := 2) (x := e + 1) (by norm_num) h0).mp
    (by simpa using h2)
  omega

/-- Evaluation form of `fl64` at a concrete positive rational once its
binade and rounded mantissa are known. -/
lemma fl64_eval {q : ℚ} {e : ℤ} {m : ℤ} (h0 : 0 < q)
    (h1 : (2 : ℚ) ^ e ≤ q) (h2 : q < (2 : ℚ) ^ (e + 1))
    (hm : rhe (q * 2 ^ ((52 : ℤ) - e)) = m) :
    fl64 q = (m : ℚ) * 2 ^ (e - 52) := by
  unfold fl64
  rw [if_neg (not_le.mpr h0), Int_log_eq h0 h1 h2, hm]

/-- Evaluation form of `rhe` at a concrete rational whose floor and
round direction are known. -/
lemma rhe_eval_down {q : ℚ} {f : ℤ} (hf : (f : ℚ) ≤ q) (hf1 : q < f + 1)
    (hr : q - f < 1/2) : rhe q = f := by
  have hfl : ⌊q⌋ = f := Int.floor_eq_iff.mpr ⟨hf, by exact_mod_cast hf1⟩
  unfold rhe
  rw [hfl, if_pos hr]

/-- The binary64 computation of gcs.go:307 at `completed = 29`,
`total = 100`: `29.0/100.0` rounds to `0.28999999999999998…`
(mantissa `5224175567749775`, exponent `-54`), the product with 100
rounds to `28.999999999999996…` (mantissa `8162774324609023`, exponent
`-48`), and `int64` truncation yields 28 — not `⌊29/100·100⌋ = 29`. -/
lemma goPct_29_100 : goPct 29 100 = 28 := by
  have hdiv : flDiv (flOfNat 29) (flOfNat 100)
      = (5224175567749775 : ℚ) * 2 ^ ((-2 : ℤ) - 52) := by
    unfold flDiv flOfNat
    rw [fl64_natCast 29 (by norm_num), fl64_natCast 100 (by norm_num)]
    apply fl64_eval (e := -2)
    · norm_num
    · rw [show ((-2 : ℤ)) = -((2 : ℕ) : ℤ) by norm_num, zpow_neg, zpow_natCast]
      norm_num
    · rw [show ((-2 : ℤ) + 1) = -((1 : ℕ) : ℤ) by norm_num, zpow_neg,
        zpow_natCast]
      norm_num
    · rw [show ((52 : ℤ) - (-2)) = ((54 : ℕ) : ℤ) by norm_num, zpow_natCast]
      apply rhe_eval_down <;> norm_num
  have hmul : flMul ((5224175567749775 : ℚ) * 2 ^ ((-2 : ℤ) - 52))
      (flOfNat 100) = (8162774324609023 : ℚ) * 2 ^ ((4 : ℤ) - 52) := by
    unfold flMul flOfNat
    rw [fl64_natCast 100 (by norm_num),
      show ((-2 : ℤ) - 52) = -((54 : ℕ) : ℤ) by norm_num, zpow_neg,
      zpow_natCast]
    apply fl64_eval (e := 4)
    · norm_num
    · rw [show ((4 : ℤ)) = ((4 : ℕ) : ℤ) by norm_num, zpow_natCast]
      norm_num
    · rw [show ((4 : ℤ) + 1) = ((5 : ℕ) : ℤ) by norm_num, zpow_natCast]
      norm_num
    · rw [show ((52 : ℤ) - 4) = ((48 : ℕ) : ℤ) by norm_num, zpow_natCast]
      apply rhe_eval_down <;> norm_num
  unfold goPct
  rw [hdiv, hmul,
    show ((4 : ℤ) - 52) = -((48 : ℕ) : ℤ) by norm_num, zpow_neg, zpow_natCast]
  apply Int.floor_eq_iff.mpr
  constructor <;> norm_num

/-! ### Step lemmas for the control loop -/

lemma sChunks_eq (cfg : RunCfg) (p0 : RunState) (elems : List RawElem) :
    sChunks cfg p0 elems =
      { runFold cfg (initState p0) elems with message := completeMsg cfg.total } :=
  rfl

lemma chunkStep_unknown (inc : ℕ) (cfg : RunCfg) (st : RunState) (t : Str) :
    chunkStep inc cfg st (.unknown t) = st := rfl

lemma chunkStep_skip {inc : ℕ} {cfg : RunCfg} {st : RunState} {o : object}
    {oc : TaskOracle} (h : cacheExists st.cacheKeys o.name = true) :
    chunkStep inc cfg st (.obj o oc) = st := by
  simp [chunkStep, h]

lemma chunkStep_error {inc : ℕ} {cfg : RunCfg} {st : RunState} {o : object}
    {oc : TaskOracle} {e : ProcErr}
    (hnc : cacheExists st.cacheKeys o.name = false)
    (herr : processObject cfg oc o = .error e) :
    chunkStep inc cfg st (.obj o oc) =
      { st with spawned := st.spawned ++ [o.name] } := by
  simp [chunkStep, hnc, herr]

lemma chunkStep_ok {inc : ℕ} {cfg : RunCfg} {st : RunState} {o : object}
    {oc : TaskOracle} {emits : List Chunk}
    (hnc : cacheExists st.cacheKeys o.name = false)
    (hok : processObject cfg oc o = .ok emits) :
    chunkStep inc cfg st (.obj o oc) =
      setProgress inc cfg o.name
        { st with spawned := st.spawned ++ [o.name],
                  emitted := st.emitted ++ emits } := by
  simp [chunkStep, hnc, hok]

lemma pcSet_fst (inc : ℕ) (ks : List Str) (r : Str) (k : Str) :
    (pcSet inc ks r k).1 = cacheSet ks k := by
  unfold pcSet
  dsimp only
  split <;> rfl

lemma setProgress_completed (inc : ℕ) (cfg : RunCfg) (n : Str)
    (st : RunState) :
    (setProgress inc cfg n st).sectionsCompleted = st.sectionsCompleted + 1 :=
  rfl

lemma setProgress_cacheKeys (inc : ℕ) (cfg : RunCfg) (n : Str)
    (st : RunState) :
    (setProgress inc cfg n st).cacheKeys = cacheSet st.cacheKeys n :=
  pcSet_fst inc st.cacheKeys st.encodedResumeInfo n

lemma setProgress_resume (inc : ℕ) (cfg : RunCfg) (n : Str) (st : RunState) :
    (setProgress inc cfg n st).encodedResumeInfo =
      (pcSet inc st.cacheKeys st.encodedResumeInfo n).2 := rfl

lemma setProgress_percent (inc : ℕ) (cfg : RunCfg) (n : Str) (st : RunState) :
    (setProgress inc cfg n st).percentComplete =
      goPct (st.sectionsCompleted + 1) cfg.total := rfl

lemma setProgress_emitted (inc : ℕ) (cfg : RunCfg) (n : Str) (st : RunState) :
    (setProgress inc cfg n st).emitted = st.emitted := rfl

lemma setProgress_spawned (inc : ℕ) (cfg : RunCfg) (n : Str) (st : RunState) :
    (setProgress inc cfg n st).spawned = st.spawned := rfl

lemma cacheExists_eq_false_iff {ks : List Str} {k : Str} :
    cacheExists ks k = false ↔ k ∉ ks := by
  simp [cacheExists]

/-- `readObjectData` returns an error, the handler's own chunks with no
raw payload, or no chunks with the full content as payload. -/
lemma readObjectData_cases (cfg : RunCfg) (oc : TaskOracle) (o : object) :
    (∃ e, readObjectData cfg oc o = .error e) ∨
    readObjectData cfg oc o =
      .ok (oc.handlerData.map (fun d => { chunkSkel cfg o with data := d }),
        none) ∨
    readObjectData cfg oc o = .ok ([], some o.content) := by
  unfold readObjectData
  split
  · exact Or.inl ⟨_, rfl⟩
  · split
    · exact Or.inr (Or.inl rfl)
    · split
      · exact Or.inl ⟨_, rfl⟩
      · split
        · exact Or.inl ⟨_, rfl⟩
        · exact Or.inr (Or.inr rfl)

/-- `processObject` returns an error, the handler's own chunks, or the
single completed raw chunk carrying the object's full content. -/
lemma processObject_cases (cfg : RunCfg) (oc : TaskOracle) (o : object) :
    (∃ e, processObject cfg oc o = .error e) ∨
    processObject cfg oc o =
      .ok (oc.handlerData.map (fun d => { chunkSkel cfg o with data := d })) ∨
    processObject cfg oc o = .ok [{ chunkSkel cfg o with data := o.content }] := by
  unfold processObject
  rcases readObjectData_cases cfg oc o with ⟨e, he⟩ | he | he <;>
    rw [he] <;> dsimp only
  · exact Or.inl ⟨e, rfl⟩
  · exact Or.inr (Or.inl rfl)
  · split
    · exact Or.inl ⟨_, rfl⟩
    · exact Or.inr (Or.inr (by simp))

/-- Every chunk a successful task returns carries the processed object's
name as its metadata filename. -/
lemma processObject_ok_filename {cfg : RunCfg} {oc : TaskOracle}
    {o : object} {emits : List Chunk}
    (hok : processObject cfg oc o = .ok emits) :
    ∀ c ∈ emits, c.meta.filename = o.name := by
  rcases processObject_cases cfg oc o with ⟨e, he⟩ | he | he <;>
    rw [hok] at he
  · exact absurd he (by simp)
  · have hem : emits =
        oc.handlerData.map (fun d => { chunkSkel cfg o with data := d }) := by
      exact Except.ok.inj he
    subst hem
    intro c hc
    obtain ⟨d, _, rfl⟩ := List.mem_map.mp hc
    rfl
  · have hem : emits = [{ chunkSkel cfg o with data := o.content }] :=
      Except.ok.inj he
    subst hem
    intro c hc
    rw [List.mem_singleton.mp hc]
    rfl

/-! ### Run-level invariants -/

/-- One control-loop step neither emits a chunk for, spawns a task for,
nor evicts a name that is already in the cache. -/
lemma chunkStep_avoids {inc : ℕ} {cfg : RunCfg} {st : RunState}
    {e : RawElem} {k : Str} (h1 : k ∈ st.cacheKeys)
    (h2 : ∀ c ∈ st.emitted, c.meta.filename ≠ k) (h3 : k ∉ st.spawned) :
    k ∈ (chunkStep inc cfg st e).cacheKeys ∧
    (∀ c ∈ (chunkStep inc cfg st e).emitted, c.meta.filename ≠ k) ∧
    k ∉ (chunkStep inc cfg st e).spawned := by
  cases e with
  | unknown t => exact ⟨h1, h2, h3⟩
  | obj o oc =>
    cases hc : cacheExists st.cacheKeys o.name with
    | true =>
      rw [chunkStep_skip hc]
      exact ⟨h1, h2, h3⟩
    | false =>
      have hok : o.name ≠ k := by
        intro hkeq
        rw [hkeq] at hc
        exact (cacheExists_eq_false_iff.mp hc) h1
      cases hpo : processObject cfg oc o with
      | error e' =>
        rw [chunkStep_error hc hpo]
        refine ⟨h1, h2, ?_⟩
        simp only [List.mem_append, List.mem_singleton]
        rintro (h | h)
        · exact h3 h
        · exact hok h.symm
      | ok emits =>
        rw [chunkStep_ok hc hpo]
        refine ⟨?_, ?_, ?_⟩
        · rw [setProgress_cacheKeys]
          exact mem_cacheSet.mpr (Or.inl h1)
        · rw [setProgress_emitted]
          intro c hcm
          rcases List.mem_append.mp hcm with hcm | hcm
          · exact h2 c hcm
          · rw [processObject_ok_filename hpo c hcm]
            exact hok
        · rw [setProgress_spawned]
          simp only [List.mem_append, List.mem_singleton]
          rintro (h | h)
          · exact h3 h
          · exact hok h.symm

/-- The whole control loop neither emits a chunk for, spawns a task for,
nor evicts a name that the cache already contains. -/
lemma runFold_avoids {inc : ℕ} {cfg : RunCfg} {k : Str} :
    ∀ (l : List RawElem) (st : RunState), k ∈ st.cacheKeys →
      (∀ c ∈ st.emitted, c.meta.filename ≠ k) → k ∉ st.spawned →
      k ∈ (l.foldl (chunkStep inc cfg) st).cacheKeys ∧
      (∀ c ∈ (l.foldl (chunkStep inc cfg) st).emitted,
        c.meta.filename ≠ k) ∧
      k ∉ (l.foldl (chunkStep inc cfg) st).spawned := by
  intro l
  induction l with
  | nil => exact fun st h1 h2 h3 => ⟨h1, h2, h3⟩
  | cons e tl ih =>
    intro st h1 h2 h3
    have h := @chunkStep_avoids inc cfg st e k h1 h2 h3
    exact ih _ h.1 h.2.1 h.2.2

lemma splitOnComma_no_comma {s : Str} (h : ',' ∉ s) : splitOnComma s = [s] := by
  induction s with
  | nil => rfl
  | cons c rest ih =>
    have hc : ¬(c = ',') := fun hc => h (by simp [hc])
    have hr : ',' ∉ rest := fun hm => h (List.mem_cons_of_mem _ hm)
    simp only [splitOnComma, if_neg hc, ih hr]

lemma splitOnComma_append {x : Str} (t : Str) (h : ',' ∉ x) :
    splitOnComma (x ++ ',' :: t) = x :: splitOnComma t := by
  induction x with
  | nil => simp [splitOnComma]
  | cons c rest ih =>
    have hc : ¬(c = ',') := fun hc => h (by simp [hc])
    have hr : ',' ∉ rest := fun hm => h (List.mem_cons_of_mem _ hm)
    simp only [List.cons_append, splitOnComma, if_neg hc]
    rw [show rest.append (',' :: t) = rest ++ ',' :: t from rfl, ih hr]

lemma splitOnComma_joinComma {ks : List Str} (hne : ks ≠ [])
    (h : ∀ x ∈ ks, ',' ∉ x) : splitOnComma (joinComma ks) = ks := by
  induction ks with
  | nil => cases hne rfl
  | cons x xs ih =>
    cases xs with
    | nil => exact splitOnComma_no_comma (h x (by simp))
    | cons y ys =>
      have hj : joinComma (x :: y :: ys) = x ++ ',' :: joinComma (y :: ys) := rfl
      rw [hj, splitOnComma_append _ (h x (by simp)),
        ih (by simp) (fun z hz => h z (List.mem_cons_of_mem _ hz))]

/-! ### Completed-count and percent invariants -/

lemma chunkStep_completed_bounds (inc : ℕ) (cfg : RunCfg) (st : RunState)
    (e : RawElem) :
    st.sectionsCompleted ≤ (chunkStep inc cfg st e).sectionsCompleted ∧
    (chunkStep inc cfg st e).sectionsCompleted ≤ st.sectionsCompleted + 1 := by
  cases e with
  | unknown t =>
    rw [chunkStep_unknown]
    exact ⟨le_refl _, by omega⟩
  | obj o oc =>
    cases hc : cacheExists st.cacheKeys o.name with
    | true =>
      rw [chunkStep_skip hc]
      exact ⟨le_refl _, by omega⟩
    | false =>
      cases hpo : processObject cfg oc o with
      | error e' =>
        rw [chunkStep_error hc hpo]
        constructor <;> (dsimp only; omega)
      | ok emits =>
        rw [chunkStep_ok hc hpo, setProgress_completed]
        constructor <;> (dsimp only; omega)

lemma chunkStep_percent_inv {inc : ℕ} {cfg : RunCfg} {st : RunState}
    (e : RawElem)
    (h : st.percentComplete = goPct st.sectionsCompleted cfg.total) :
    (chunkStep inc cfg st e).percentComplete
      = goPct (chunkStep inc cfg st e).sectionsCompleted cfg.total := by
  cases e with
  | unknown t => exact h
  | obj o oc =>
    cases hc : cacheExists st.cacheKeys o.name with
    | true =>
      rw [chunkStep_skip hc]
      exact h
    | false =>
      cases hpo : processObject cfg oc o with
      | error e' =>
        rw [chunkStep_error hc hpo]
        exact h
      | ok emits =>
        rw [chunkStep_ok hc hpo, setProgress_percent, setProgress_completed]

lemma runFold_completed_mono (inc : ℕ) (cfg : RunCfg) :
    ∀ (l : List RawElem) (st : RunState),
      st.sectionsCompleted ≤
        (l.foldl (chunkStep inc cfg) st).sectionsCompleted := by
  intro l
  induction l with
  | nil => exact fun st => le_refl _
  | cons e tl ih =>
    intro st
    exact le_trans (chunkStep_completed_bounds inc cfg st e).1
      (ih (chunkStep inc cfg st e))

lemma runFold_completed_le (inc : ℕ) (cfg : RunCfg) :
    ∀ (l : List RawElem) (st : RunState),
      (l.foldl (chunkStep inc cfg) st).sectionsCompleted ≤
        st.sectionsCompleted + l.length := by
  intro l
  induction l with
  | nil => exact fun st => by simp
  | cons e tl ih =>
    intro st
    calc ((e :: tl).foldl (chunkStep inc cfg) st).sectionsCompleted
        ≤ (chunkStep inc cfg st e).sectionsCompleted + tl.length :=
          ih (chunkStep inc cfg st e)
      _ ≤ st.sectionsCompleted + (e :: tl).length := by
          have := (chunkStep_completed_bounds inc cfg st e).2
          simp only [List.length_cons]
          omega

lemma runFold_percent_inv (inc : ℕ) (cfg : RunCfg) :
    ∀ (l : List RawElem) (st : RunState),
      st.percentComplete = goPct st.sectionsCompleted cfg.total →
      (l.foldl (chunkStep inc cfg) st).percentComplete
        = goPct (l.foldl (chunkStep inc cfg) st).sectionsCompleted
            cfg.total := by
  intro l
  induction l with
  | nil => exact fun st h => h
  | cons e tl ih =>
    intro st h
    exact ih (chunkStep inc cfg st e) (chunkStep_percent_inv e h)

/-- With an all-success oracle and the cancellation race won by the
send, a run over fresh distinct names completes every object and leaves
the percent of the final count. -/
lemma runFold_all_success (inc : ℕ) (cfg : RunCfg) (oc : TaskOracle)
    (hro : oc.readerOk = true) (hhd : oc.handled = false)
    (hrs : oc.resetOk = true) (hrk : oc.readOk = true)
    (hsend : cfg.cancelled = false ∨ oc.sendChoice = true) :
    ∀ (names : List Str) (st : RunState), names.Nodup →
      (∀ n ∈ names, n ∉ st.cacheKeys) →
      ((names.map (fun n => RawElem.obj (mkObj n) oc)).foldl
          (chunkStep inc cfg) st).sectionsCompleted
        = st.sectionsCompleted + names.length ∧
      (names ≠ [] →
        ((names.map (fun n => RawElem.obj (mkObj n) oc)).foldl
            (chunkStep inc cfg) st).percentComplete
          = goPct (st.sectionsCompleted + names.length) cfg.total) := by
  have hsucc : ∀ o : object, processObject cfg oc o =
      .ok [{ chunkSkel cfg o with data := o.content }] := by
    intro o
    unfold processObject readObjectData
    rw [hro, hhd, hrs, hrk]
    rcases hsend with h | h <;> simp [h]
  intro names
  induction names with
  | nil => exact fun st _ _ => ⟨by simp, fun h => absurd rfl h⟩
  | cons a tl ih =>
    intro st hnd hfresh
    have hnc : cacheExists st.cacheKeys (mkObj a).name = false := by
      rw [cacheExists_eq_false_iff]
      exact hfresh a (by simp)
    have hstep := @chunkStep_ok inc cfg st (mkObj a) oc _ hnc (hsucc (mkObj a))
    have hkeys : (chunkStep inc cfg st (.obj (mkObj a) oc)).cacheKeys
        = cacheSet st.cacheKeys a := by
      rw [hstep, setProgress_cacheKeys]
      rfl
    have hcomp : (chunkStep inc cfg st (.obj (mkObj a) oc)).sectionsCompleted
        = st.sectionsCompleted + 1 := by
      rw [hstep, setProgress_completed]
    have hpct : (chunkStep inc cfg st (.obj (mkObj a) oc)).percentComplete
        = goPct (st.sectionsCompleted + 1) cfg.total := by
      rw [hstep, setProgress_percent]
    have hfresh2 : ∀ n ∈ tl,
        n ∉ (chunkStep inc cfg st (.obj (mkObj a) oc)).cacheKeys := by
      intro n hn
      rw [hkeys]
      rw [mem_cacheSet]
      rintro (h | rfl)
      · exact hfresh n (List.mem_cons_of_mem _ hn) h
      · exact (List.nodup_cons.mp hnd).1 hn
    have ihr := ih (chunkStep inc cfg st (.obj (mkObj a) oc))
      (List.nodup_cons.mp hnd).2 hfresh2
    constructor
    · show ((tl.map (fun n => RawElem.obj (mkObj n) oc)).foldl
          (chunkStep inc cfg)
          (chunkStep inc cfg st (.obj (mkObj a) oc))).sectionsCompleted = _
      rw [ihr.1, hcomp]
      simp only [List.length_cons]
      omega
    · intro _
      show ((tl.map (fun n => RawElem.obj (mkObj n) oc)).foldl
          (chunkStep inc cfg)
          (chunkStep inc cfg st (.obj (mkObj a) oc))).percentComplete = _
      cases tl with
      | nil =>
        simp only [List.map_nil, List.foldl_nil]
        rw [hpct]
        simp
      | cons b tl2 =>
        rw [ihr.2 (by simp), hcomp]
        congr 1
        simp only [List.length_cons]
        omega


lemma runFold_eq (cfg : RunCfg) (st : RunState) (l : List RawElem) :
    runFold cfg st l = l.foldl (chunkStep defaultCachePersistIncrement cfg) st :=
  rfl


/-! ### Cache insertion sequences -/

lemma foldl_cacheSet_fresh :
    ∀ (l : List Str) (ks : List Str), l.Nodup → (∀ x ∈ l, x ∉ ks) →
      l.foldl cacheSet ks = ks ++ l := by
  intro l
  induction l with
  | nil => intro ks _ _; simp
  | cons a tl ih =>
    intro ks hnd hfresh
    have ha : a ∉ ks := hfresh a (by simp)
    have hset : cacheSet ks a = ks ++ [a] := by
      unfold cacheSet
      rw [if_neg ha]
    rw [List.foldl_cons, hset,
      ih (ks ++ [a]) (List.nodup_cons.mp hnd).2 ?fresh]
    · simp
    case fresh =>
      intro x hx
      simp only [List.mem_append, List.mem_singleton]
      rintro (h | rfl)
      · exact hfresh x (List.mem_cons_of_mem _ hx) h
      · exact (List.nodup_cons.mp hnd).1 hx

lemma pcSetAll_fst (inc : ℕ) :
    ∀ (l : List Str) (p : List Str × Str),
      (pcSetAll inc p l).1 = l.foldl cacheSet p.1 := by
  intro l
  induction l with
  | nil => intro p; rfl
  | cons a tl ih =>
    intro p
    show (pcSetAll inc (pcSet inc p.1 p.2 a) tl).1 = _
    rw [ih, pcSet_fst, List.foldl_cons]


/-! ### Interleaved completion transactions -/

lemma applyCompletions_completed (inc : ℕ) (cfg : RunCfg) :
    ∀ (names : List Str) (st : RunState),
      (applyCompletions inc cfg st names).sectionsCompleted
        = st.sectionsCompleted + names.length := by
  intro names
  induction names with
  | nil => intro st; simp [applyCompletions]
  | cons a tl ih =>
    intro st
    show (applyCompletions inc cfg
      (setProgress inc cfg a st) tl).sectionsCompleted = _
    rw [ih, setProgress_completed]
    simp only [List.length_cons]
    omega

lemma applyCompletions_mem_keys (inc : ℕ) (cfg : RunCfg) :
    ∀ (names : List Str) (st : RunState) (x : Str),
      x ∈ (applyCompletions inc cfg st names).cacheKeys ↔
        x ∈ st.cacheKeys ∨ x ∈ names := by
  intro names
  induction names with
  | nil => intro st x; simp [applyCompletions]
  | cons a tl ih =>
    intro st x
    show x ∈ (applyCompletions inc cfg
      (setProgress inc cfg a st) tl).cacheKeys ↔ _
    rw [ih, setProgress_cacheKeys, mem_cacheSet]
    simp only [List.mem_cons]
    tauto

lemma setProgress_consistent {inc : ℕ} {cfg : RunCfg} {r0 : Str}
    {st : RunState} (h : consistentWith inc cfg r0 st) (n : Str) :
    consistentWith inc cfg r0 (setProgress inc cfg n st) := by
  obtain ⟨hp, hr⟩ := h
  constructor
  · rw [setProgress_percent, setProgress_completed]
  · rw [setProgress_resume]
    unfold pcSet
    dsimp only
    split
    · rename_i hmod
      right
      refine ⟨cacheSet st.cacheKeys n, ?_, hmod, rfl⟩
      intro x hx
      rw [setProgress_cacheKeys]
      exact hx
    · rcases hr with hinit | ⟨ks, hsub, hmod, heq⟩
      · exact Or.inl hinit
      · right
        refine ⟨ks, ?_, hmod, heq⟩
        intro x hx
        rw [setProgress_cacheKeys]
        exact mem_cacheSet.mpr (Or.inl (hsub x hx))

lemma applyCompletions_consistent {inc : ℕ} {cfg : RunCfg} {r0 : Str} :
    ∀ (names : List Str) (st : RunState),
      consistentWith inc cfg r0 st →
      consistentWith inc cfg r0 (applyCompletions inc cfg st names) := by
  intro names
  induction names with
  | nil => exact fun st h => h
  | cons a tl ih =>
    intro st h
    exact ih _ (setProgress_consistent h a)


/-! ## Claim theorems -/

/-- C1: an object whose name is already in the resumable cache when the
control loop dequeues it is skipped without any side effects — the state
(cache, progress, emissions, spawned tasks) is exactly unchanged — and
consequently a run pre-seeded with a snapshot containing key `k` never
emits a chunk for object `k` nor spawns a task for it. -/
theorem C1_cached_skip_no_side_effects (cfg : RunCfg) (p0 : RunState)
    (elems : List RawElem) (k : Str)
    (hk : k ∈ setupCache p0.encodedResumeInfo) :
    (∀ (st : RunState) (o : object) (oc : TaskOracle),
      cacheExists st.cacheKeys o.name = true →
      chunkStep defaultCachePersistIncrement cfg st (.obj o oc) = st) ∧
    (∀ c ∈ (sChunks cfg p0 elems).emitted, c.meta.filename ≠ k) ∧
    k ∉ (sChunks cfg p0 elems).spawned := by
  have h := @runFold_avoids defaultCachePersistIncrement cfg k
    elems (initState p0) hk (by simp [initState]) (by simp [initState])
  exact ⟨fun st o oc hc => chunkStep_skip hc, h.2.1, h.2.2⟩

/-- Witness for C1: a run seeded with snapshot `"a"` dequeues an object
named `a` and emits nothing for it. -/
theorem C1_witness :
    ((['a'] : Str) ∈ setupCache "a".data) ∧
    (∀ c ∈ (sChunks ⟨['s'], 1, true, 1, false⟩
        ⟨0, 0, 0, [], "a".data, [], [], []⟩
        [.obj ⟨['a'], ['b'], [], [], [], [], 0, [], [7]⟩
          ⟨true, false, [], true, true, true⟩]).emitted,
      c.meta.filename ≠ ['a']) :=
  ⟨by decide,
    (C1_cached_skip_no_side_effects ⟨['s'], 1, true, 1, false⟩
      ⟨0, 0, 0, [], "a".data, [], [], []⟩
      [.obj ⟨['a'], ['b'], [], [], [], [], 0, [], [7]⟩
        ⟨true, false, [], true, true, true⟩] ['a'] (by decide)).2.1⟩

/-- C2: when a task fails at any step, the control-loop step leaves the
cache, every progress field and the emitted chunks unchanged (only the
spawn is recorded), the object's name stays out of the cache, the rest of
the sequence is still processed, and a later dequeue of the same object
spawns a task again. -/
theorem C2_error_leaves_state_unchanged (inc : ℕ) (cfg : RunCfg)
    (st : RunState) (o : object) (oc : TaskOracle) (e : ProcErr)
    (rest : List RawElem)
    (hnc : cacheExists st.cacheKeys o.name = false)
    (herr : processObject cfg oc o = .error e) :
    ((chunkStep inc cfg st (.obj o oc)).cacheKeys = st.cacheKeys ∧
     (chunkStep inc cfg st (.obj o oc)).sectionsCompleted =
       st.sectionsCompleted ∧
     (chunkStep inc cfg st (.obj o oc)).percentComplete =
       st.percentComplete ∧
     (chunkStep inc cfg st (.obj o oc)).sectionsRemaining =
       st.sectionsRemaining ∧
     (chunkStep inc cfg st (.obj o oc)).encodedResumeInfo =
       st.encodedResumeInfo ∧
     (chunkStep inc cfg st (.obj o oc)).emitted = st.emitted) ∧
    cacheExists (chunkStep inc cfg st (.obj o oc)).cacheKeys o.name
      = false ∧
    ((RawElem.obj o oc :: rest).foldl (chunkStep inc cfg) st
      = rest.foldl (chunkStep inc cfg) (chunkStep inc cfg st (.obj o oc))) ∧
    (∀ oc2 : TaskOracle,
      (chunkStep inc cfg (chunkStep inc cfg st (.obj o oc))
          (.obj o oc2)).spawned
        = (chunkStep inc cfg st (.obj o oc)).spawned ++ [o.name]) := by
  have hstep := @chunkStep_error inc cfg st o oc e hnc herr
  refine ⟨?_, ?_, rfl, ?_⟩
  · rw [hstep]
    exact ⟨rfl, rfl, rfl, rfl, rfl, rfl⟩
  · rw [hstep]
    exact hnc
  · intro oc2
    rw [hstep]
    have hnc' : cacheExists
        ({ st with spawned := st.spawned ++ [o.name] } : RunState).cacheKeys
        o.name = false := hnc
    cases hpo : processObject cfg oc2 o with
    | error e2 => rw [@chunkStep_error inc cfg _ o oc2 e2 hnc' hpo]
    | ok emits => rw [@chunkStep_ok inc cfg _ o oc2 emits hnc' hpo, setProgress_spawned]

/-- Witness for C2: a reader failure on object `d` leaves the cache
unchanged at a concrete state. -/
theorem C2_witness :
    cacheExists ((⟨0, 0, 0, [], [], [], [], []⟩ : RunState)).cacheKeys ['d']
      = false ∧
    processObject ⟨['s'], 1, true, 2, false⟩
      ⟨false, false, [], true, true, true⟩
      ⟨['d'], [], [], [], [], [], 0, [], []⟩ = .error .readerErr ∧
    (chunkStep 2 ⟨['s'], 1, true, 2, false⟩ ⟨0, 0, 0, [], [], [], [], []⟩
      (.obj ⟨['d'], [], [], [], [], [], 0, [], []⟩
        ⟨false, false, [], true, true, true⟩)).cacheKeys = [] :=
  ⟨by decide, by decide,
    (C2_error_leaves_state_unchanged 2 ⟨['s'], 1, true, 2, false⟩
      ⟨0, 0, 0, [], [], [], [], []⟩ ⟨['d'], [], [], [], [], [], 0, [], []⟩
      ⟨false, false, [], true, true, true⟩ .readerErr []
      (by decide) (by decide)).1.1⟩

/-- C10: a value of unexpected type received from the object channel is
skipped: the state (cache, progress, emissions, spawned tasks) is exactly
unchanged, and the remaining elements are still processed. -/
theorem C10_unknown_type_skipped (inc : ℕ) (cfg : RunCfg) (st : RunState)
    (t : Str) (rest : List RawElem) :
    chunkStep inc cfg st (.unknown t) = st ∧
    (RawElem.unknown t :: rest).foldl (chunkStep inc cfg) st
      = rest.foldl (chunkStep inc cfg) st :=
  ⟨rfl, rfl⟩


/-- C4 (amended): within a run started from fresh progress, with
enumeration reporting at least as many objects as the loop dequeues and
a total below `2^53`, the completed count is non-decreasing between
observation points and never exceeds the total; at every observation
point the percent equals the binary64 computation
`int64(float64(completed)/float64(total)*100)` — which can undershoot
`floor(completed/total*100)` by one — and never exceeds 100. -/
theorem C4_progress_monotone_float_percent (cfg : RunCfg) (p0 : RunState)
    (elems : List RawElem)
    (hc0 : p0.sectionsCompleted = 0) (hp0 : p0.percentComplete = 0)
    (hlen : elems.length ≤ cfg.total) (hbig : cfg.total < 2 ^ 53) :
    ∀ i j, i ≤ j →
      (runFold cfg (initState p0) (elems.take i)).sectionsCompleted ≤
        (runFold cfg (initState p0) (elems.take j)).sectionsCompleted ∧
      (runFold cfg (initState p0) (elems.take i)).sectionsCompleted ≤
        cfg.total ∧
      (runFold cfg (initState p0) (elems.take i)).percentComplete =
        goPct (runFold cfg (initState p0)
          (elems.take i)).sectionsCompleted cfg.total ∧
      (runFold cfg (initState p0) (elems.take i)).percentComplete ≤ 100 := by
  intro i j hij
  have hinit_c : (initState p0).sectionsCompleted = 0 := hc0
  have hinit_p : (initState p0).percentComplete
      = goPct (initState p0).sectionsCompleted cfg.total := by
    show p0.percentComplete = goPct p0.sectionsCompleted cfg.total
    rw [hp0, hc0, goPct_zero_left]
  have hle : ∀ m, (runFold cfg (initState p0)
      (elems.take m)).sectionsCompleted ≤ cfg.total := by
    intro m
    rw [runFold_eq]
    have h1 := runFold_completed_le defaultCachePersistIncrement cfg
      (elems.take m) (initState p0)
    have h2 : (elems.take m).length ≤ elems.length := by
      rw [List.length_take]
      omega
    omega
  refine ⟨?_, hle i, ?_, ?_⟩
  · rw [show j = i + (j - i) by omega, List.take_add, runFold_eq,
      runFold_eq, List.foldl_append]
    exact runFold_completed_mono defaultCachePersistIncrement cfg _ _
  · rw [runFold_eq]
    exact runFold_percent_inv defaultCachePersistIncrement cfg
      (elems.take i) _ hinit_p
  · have hpi := runFold_percent_inv defaultCachePersistIncrement cfg
      (elems.take i) (initState p0) hinit_p
    rw [runFold_eq, hpi]
    exact goPct_le_100 (by rw [← runFold_eq]; exact hle i) hbig

/-- C4 counterexample: with 100 enumerated objects, at the observation
point reached after 29 successful completions (a fresh run whose first
29 dequeued objects all succeed) the stored percent is 28, whereas the
claim demands `floor(completed/total*100) = floor(29) = 29`. -/
theorem C4_percent_not_floor_cex :
    (runFold ⟨['s'], 1, true, 100, false⟩ (initState freshP0)
      (cexNames.map
        (fun n => RawElem.obj (mkObj n) okOracle))).sectionsCompleted
      = 29 ∧
    (runFold ⟨['s'], 1, true, 100, false⟩ (initState freshP0)
      (cexNames.map
        (fun n => RawElem.obj (mkObj n) okOracle))).percentComplete
      = 28 ∧
    ⌊((29 : ℚ) / 100) * 100⌋ = 29 := by
  have h := runFold_all_success defaultCachePersistIncrement
    ⟨['s'], 1, true, 100, false⟩ okOracle rfl rfl rfl rfl (Or.inl rfl)
    cexNames (initState freshP0) (by decide) (by decide)
  have hlen : cexNames.length = 29 := by decide
  have hc : (initState freshP0).sectionsCompleted = 0 := rfl
  refine ⟨?_, ?_, ?_⟩
  · rw [runFold_eq, h.1, hc, hlen]
  · rw [runFold_eq, h.2 (by decide), hc, hlen]
    exact goPct_29_100
  · have h29 : ((29 : ℚ) / 100) * 100 = ((29 : ℤ) : ℚ) := by norm_num
    rw [h29, Int.floor_intCast]

/-- Witness for C4 (amended) on a 1-object run with total 3. -/
theorem C4_witness :
    ((freshP0.sectionsCompleted = 0 ∧ freshP0.percentComplete = 0) ∧
      ([RawElem.obj (mkObj ['a']) okOracle].length ≤ 3 ∧
        (3 : ℕ) < 2 ^ 53)) ∧
    (runFold ⟨['s'], 1, true, 3, false⟩ (initState freshP0)
      ([RawElem.obj (mkObj ['a']) okOracle].take 1)).percentComplete
      ≤ 100 :=
  ⟨⟨⟨rfl, rfl⟩, by decide, by norm_num⟩,
    ((C4_progress_monotone_float_percent ⟨['s'], 1, true, 3, false⟩ freshP0
      [RawElem.obj (mkObj ['a']) okOracle] rfl rfl (by decide)
      (by norm_num)) 1 1 (le_refl 1)).2.2.2⟩


/-- C3: an insertion through the persistable cache publishes the full
snapshot into the shared resume field exactly when the post-insertion
key count is a multiple of the persist increment (general
characterization), and over a run of distinct fresh keys the resume
field is refreshed at exactly the P-th, 2P-th, … insertion and is
unchanged at every other insertion. -/
theorem C3_checkpoint_cadence (inc : ℕ) (_hinc : 0 < inc)
    (names : List Str) (hnd : names.Nodup) (r0 : Str) :
    (∀ (ks : List Str) (r k : Str),
      (pcSet inc ks r k).2 =
        if cacheCount (cacheSet ks k) % inc = 0
        then cacheContents (cacheSet ks k) else r) ∧
    (∀ i, i < names.length →
      (pcSetAll inc ([], r0) (names.take (i + 1))).2 =
        if (i + 1) % inc = 0 then cacheContents (names.take (i + 1))
        else (pcSetAll inc ([], r0) (names.take i)).2) := by
  constructor
  · intro ks r k
    unfold pcSet
    dsimp only
    by_cases h : cacheCount (cacheSet ks k) % inc = 0 <;> simp [h]
  · intro i hi
    have hndt : ∀ m, (names.take m).Nodup :=
      fun m => hnd.sublist (List.take_sublist m names)
    have hkeys : (pcSetAll inc ([], r0) (names.take i)).1 = names.take i := by
      rw [pcSetAll_fst]
      have h := foldl_cacheSet_fresh (names.take i) [] (hndt i)
        (by intro x _ hx; exact absurd hx (List.not_mem_nil x))
      simpa using h
    have htake : names.take (i + 1) = names.take i ++ [names.get ⟨i, hi⟩] := by
      rw [List.take_succ]
      simp [List.getElem?_eq_getElem hi]
    have happ : pcSetAll inc ([], r0) (names.take (i + 1))
        = pcSet inc (pcSetAll inc ([], r0) (names.take i)).1
            (pcSetAll inc ([], r0) (names.take i)).2 (names.get ⟨i, hi⟩) := by
      rw [htake]
      unfold pcSetAll
      rw [List.foldl_append]
      rfl
    have hni : names.get ⟨i, hi⟩ ∉ names.take i := by
      have hnd1 : (names.take i ++ [names.get ⟨i, hi⟩]).Nodup := by
        rw [← htake]
        exact hndt (i + 1)
      have hdisj := (List.nodup_append.mp hnd1).2.2
      intro hmem
      exact hdisj hmem (by simp)
    have hset : cacheSet (pcSetAll inc ([], r0) (names.take i)).1
        (names.get ⟨i, hi⟩) = names.take (i + 1) := by
      rw [hkeys, htake]
      unfold cacheSet
      rw [if_neg hni]
    have hcount : cacheCount (cacheSet
        (pcSetAll inc ([], r0) (names.take i)).1 (names.get ⟨i, hi⟩))
        = i + 1 := by
      rw [hset, cacheCount, List.length_take]
      omega
    rw [happ]
    unfold pcSet
    dsimp only
    rw [hcount]
    by_cases hmod : (i + 1) % inc = 0
    · rw [if_pos hmod, if_pos hmod, hset]
    · rw [if_neg hmod, if_neg hmod]

/-- Witness for C3: increment 2, keys `a`, `b`, `c`; the second insertion
refreshes the snapshot. -/
theorem C3_witness :
    ((0 < 2) ∧ ([['a'], ['b'], ['c']] : List Str).Nodup) ∧
    (pcSetAll 2 ([], []) (([['a'], ['b'], ['c']] : List Str).take 2)).2 =
      (if (1 + 1) % 2 = 0
       then cacheContents (([['a'], ['b'], ['c']] : List Str).take 2)
       else (pcSetAll 2 ([], []) (([['a'], ['b'], ['c']] : List Str).take 1)).2) :=
  ⟨⟨by decide, by decide⟩,
    (C3_checkpoint_cadence 2 (by decide) [['a'], ['b'], ['c']] (by decide)
      []).2 1 (by decide)⟩

/-- C5 counterexample: the cache whose only key is the empty string — a
delimiter-free key — renders as the empty snapshot string, which
reconstructs as the empty cache, so `exists("")` flips from `true` to
`false` across the round trip. -/
theorem C5_empty_key_roundtrip_cex :
    (',' ∉ ([] : Str)) ∧
    cacheExists (cacheSet [] []) [] = true ∧
    cacheExists (setupCache (cacheContents (cacheSet [] []))) [] = false :=
  ⟨by decide, by decide, by decide⟩

/-- C5 (amended): for keys that are nonempty and delimiter-free, the
snapshot round trip through `contents` and `setupCache` preserves the
`exists()` answer for every query — in particular for every previously
inserted key — and an empty snapshot reconstructs as the empty cache. -/
theorem C5_snapshot_roundtrip (ks : List Str)
    (h : ∀ x ∈ ks, x ≠ [] ∧ ',' ∉ x) :
    (∀ k, cacheExists (setupCache (cacheContents ks)) k
      = cacheExists ks k) ∧
    setupCache [] = [] := by
  refine ⟨?_, rfl⟩
  intro k
  cases ks with
  | nil => rfl
  | cons x xs =>
    have hne : cacheContents (x :: xs) ≠ [] := by
      unfold cacheContents
      cases xs with
      | nil => exact (h x (by simp)).1
      | cons y ys =>
        show x ++ ',' :: joinComma (y :: ys) ≠ []
        simp
    unfold setupCache
    rw [if_neg hne]
    unfold cacheContents
    rw [splitOnComma_joinComma (by simp) (fun z hz => (h z hz).2)]
    unfold cacheExists
    rw [decide_eq_decide, mem_foldl_cacheSet]
    simp

/-- Witness for C5 (amended) on the key set `{a, b}`. -/
theorem C5_witness :
    (∀ x ∈ ([['a'], ['b']] : List Str), x ≠ [] ∧ ',' ∉ x) ∧
    cacheExists (setupCache (cacheContents ([['a'], ['b']] : List Str)))
        ['a']
      = cacheExists ([['a'], ['b']] : List Str) ['a'] :=
  ⟨by decide, (C5_snapshot_roundtrip [['a'], ['b']] (by decide)).1 ['a']⟩


/-- C6 (amended): for each processed object, the completed raw chunk
carrying the object's full content is sent on the output queue iff the
reader opened, the handler declined the file, rewind and full read
succeeded, and the final `select` (gcs.go:350-354) was not resolved to
the cancellation branch; a handled file emits only the handler's own
chunks and still counts as success; rewind or read failure is an error
for that object only. -/
theorem C6_raw_emission_iff (cfg : RunCfg) (oc : TaskOracle) (o : object) :
    (oc.handled = false →
      (processObject cfg oc o
          = .ok [{ chunkSkel cfg o with data := o.content }]
        ↔ oc.readerOk = true ∧ oc.resetOk = true ∧ oc.readOk = true ∧
          (cfg.cancelled = false ∨ oc.sendChoice = true))) ∧
    (oc.handled = true → oc.readerOk = true →
      processObject cfg oc o =
        .ok (oc.handlerData.map
          (fun d => { chunkSkel cfg o with data := d }))) ∧
    (oc.readerOk = true → oc.handled = false → oc.resetOk = false →
      processObject cfg oc o = .error .resetErr) ∧
    (oc.readerOk = true → oc.handled = false → oc.resetOk = true →
      oc.readOk = false → processObject cfg oc o = .error .readErr) := by
  rcases oc with ⟨ro, hd, hdl, rs, rk, sc⟩
  rcases cfg with ⟨nm, sid, vf, tot, cl⟩
  cases ro <;> cases hd <;> cases rs <;> cases rk <;> cases sc <;>
    cases cl <;> simp [processObject, readObjectData, chunkSkel]

/-- C6 counterexample: handler declined, rewind and full read succeeded,
yet no raw chunk is sent — the cancelled `select` resolves to the
cancellation branch — so the claimed "if and only if" fails as stated. -/
theorem C6_cancelled_send_cex :
    (⟨true, false, [], true, true, false⟩ : TaskOracle).handled = false ∧
    (⟨true, false, [], true, true, false⟩ : TaskOracle).resetOk = true ∧
    (⟨true, false, [], true, true, false⟩ : TaskOracle).readOk = true ∧
    processObject ⟨['s'], 1, true, 1, true⟩
      ⟨true, false, [], true, true, false⟩
      ⟨['a'], [], [], [], [], [], 0, [], [7]⟩
      = .error .ctxCancelled :=
  ⟨rfl, rfl, rfl, by decide⟩

/-- Witness for C6 (amended): an uncancelled raw-path object emits its
completed chunk. -/
theorem C6_witness :
    (⟨true, false, [], true, true, true⟩ : TaskOracle).handled = false ∧
    processObject ⟨['s'], 1, true, 1, false⟩
        ⟨true, false, [], true, true, true⟩
        ⟨['a'], [], [], [], [], [], 0, [], [7]⟩
      = .ok [{ chunkSkel ⟨['s'], 1, true, 1, false⟩
          ⟨['a'], [], [], [], [], [], 0, [], [7]⟩ with data := [7] }] :=
  ⟨rfl, ((C6_raw_emission_iff ⟨['s'], 1, true, 1, false⟩
      ⟨true, false, [], true, true, true⟩
      ⟨['a'], [], [], [], [], [], 0, [], [7]⟩).1 rfl).mpr
    ⟨rfl, rfl, rfl, Or.inl rfl⟩⟩

/-- C7 counterexample: with the run cancelled for its entire duration,
the control loop still spawns a task for a dequeued uncached object —
the loop at gcs.go:255-278 never checks the context — contradicting
"spawns no new tasks for objects dequeued after it observes the
cancellation". -/
theorem C7_spawn_after_cancel_cex :
    (⟨['s'], 1, true, 1, true⟩ : RunCfg).cancelled = true ∧
    (sChunks ⟨['s'], 1, true, 1, true⟩ freshP0
      [.obj (mkObj ['a']) ⟨true, false, [], true, true, false⟩]).spawned
      = [['a']] :=
  ⟨rfl, by decide⟩

/-- C7 (amended): once cancellation has fired, a task at the send point
never blocks: when the `select` resolves to the cancellation branch the
task aborts the send and reports the cancellation as its terminal error,
and when the send is ready and chosen the chunk is sent instead; the
control loop does not observe cancellation — it spawns a task for every
uncached dequeued object regardless. -/
theorem C7_cancellation_behavior (cfg : RunCfg) (oc : TaskOracle)
    (o : object) (st : RunState) (inc : ℕ)
    (hcan : cfg.cancelled = true) :
    (oc.readerOk = true → oc.handled = false → oc.resetOk = true →
      oc.readOk = true → oc.sendChoice = false →
      processObject cfg oc o = .error .ctxCancelled) ∧
    (oc.readerOk = true → oc.handled = false → oc.resetOk = true →
      oc.readOk = true → oc.sendChoice = true →
      processObject cfg oc o
        = .ok [{ chunkSkel cfg o with data := o.content }]) ∧
    (cacheExists st.cacheKeys o.name = false →
      (chunkStep inc cfg st (.obj o oc)).spawned
        = st.spawned ++ [o.name]) := by
  refine ⟨?_, ?_, ?_⟩
  · intro h1 h2 h3 h4 h5
    unfold processObject readObjectData
    rw [h1, h2, h3, h4]
    simp [hcan, h5]
  · intro h1 h2 h3 h4 h5
    unfold processObject readObjectData
    rw [h1, h2, h3, h4]
    simp [hcan, h5]
  · intro hnc
    cases hpo : processObject cfg oc o with
    | error e => rw [chunkStep_error hnc hpo]
    | ok emits => rw [chunkStep_ok hnc hpo, setProgress_spawned]

/-- Witness for C7 (amended): a cancelled pending send reports the
cancellation error. -/
theorem C7_witness :
    (⟨['s'], 1, true, 1, true⟩ : RunCfg).cancelled = true ∧
    processObject ⟨['s'], 1, true, 1, true⟩
        ⟨true, false, [], true, true, false⟩
        ⟨['a'], [], [], [], [], [], 0, [], [7]⟩
      = .error .ctxCancelled :=
  ⟨rfl, (C7_cancellation_behavior ⟨['s'], 1, true, 1, true⟩
      ⟨true, false, [], true, true, false⟩
      ⟨['a'], [], [], [], [], [], 0, [], [7]⟩ freshP0 2500 rfl).1
      rfl rfl rfl rfl rfl⟩

/-- C8 counterexample: a resumed run whose only dequeued object is
already cached processes zero objects, yet the final message renders the
enumeration total 1: the message carries `stats.numObjects`
(gcs.go:311), not the number of objects processed during the run. -/
theorem C8_message_total_vs_processed_cex :
    (sChunks ⟨['s'], 1, true, 1, false⟩ ⟨0, 0, 0, [], ['a'], [], [], []⟩
      [.obj (mkObj ['a']) okOracle]).sectionsCompleted = 0 ∧
    (sChunks ⟨['s'], 1, true, 1, false⟩ ⟨0, 0, 0, [], ['a'], [], [], []⟩
      [.obj (mkObj ['a']) okOracle]).message = completeMsg 1 ∧
    completeMsg 1 ≠ completeMsg 0 :=
  ⟨by decide, by decide, by decide⟩

/-- C8 (amended): the streaming entry point returns the state obtained
after folding every element of the object sequence (every spawned task's
effects joined, in the sequential model) and then sets the final
message, which carries the enumeration total `stats.numObjects` — not
the number of objects processed during the run. -/
theorem C8_completion_message (cfg : RunCfg) (p0 : RunState)
    (elems : List RawElem) :
    (sChunks cfg p0 elems).message = completeMsg cfg.total ∧
    sChunks cfg p0 elems =
      { runFold cfg (initState p0) elems with
        message := completeMsg cfg.total } :=
  ⟨rfl, rfl⟩

/-- C9: each task's read-modify-write of shared progress and cache runs
while holding the single mutex `s.mu` (gcs.go:299-300) and is therefore
modelled as one atomic step; under any interleaving (any prefix, any
order) of concurrent completions the progress state stays mutually
consistent — the percent always equals the binary64 percentage of the
completed count and the published snapshot always renders a
checkpoint-sized subset of the current keys (or is the initial one) —
and the completed count, percent and key-set membership after all
completions are the same for every interleaving order. -/
theorem C9_atomic_progress_consistency (inc : ℕ) (cfg : RunCfg) (r0 : Str)
    (st : RunState) (names names2 : List Str) (hperm : names.Perm names2)
    (hcons : consistentWith inc cfg r0 st) :
    (∀ pre : List Str, pre <+: names →
      consistentWith inc cfg r0 (applyCompletions inc cfg st pre)) ∧
    (applyCompletions inc cfg st names).sectionsCompleted
      = (applyCompletions inc cfg st names2).sectionsCompleted ∧
    (applyCompletions inc cfg st names).percentComplete
      = (applyCompletions inc cfg st names2).percentComplete ∧
    (∀ x, x ∈ (applyCompletions inc cfg st names).cacheKeys ↔
      x ∈ (applyCompletions inc cfg st names2).cacheKeys) := by
  refine ⟨?_, ?_, ?_, ?_⟩
  · exact fun pre _ => applyCompletions_consistent pre st hcons
  · rw [applyCompletions_completed, applyCompletions_completed,
      hperm.length_eq]
  · have h1 := (applyCompletions_consistent names st hcons).1
    have h2 := (applyCompletions_consistent names2 st hcons).1
    rw [h1, h2, applyCompletions_completed, applyCompletions_completed,
      hperm.length_eq]
  · intro x
    rw [applyCompletions_mem_keys, applyCompletions_mem_keys]
    have hm := hperm.mem_iff (a := x)
    tauto

/-- Witness for C9: two completions applied in either order yield the
same completed count. -/
theorem C9_witness :
    (([['a'], ['b']] : List Str).Perm [['b'], ['a']] ∧
      consistentWith 2 ⟨['s'], 1, true, 2, false⟩ [] freshP0) ∧
    (applyCompletions 2 ⟨['s'], 1, true, 2, false⟩ freshP0
        [['a'], ['b']]).sectionsCompleted
      = (applyCompletions 2 ⟨['s'], 1, true, 2, false⟩ freshP0
        [['b'], ['a']]).sectionsCompleted :=
  ⟨⟨List.Perm.swap ['b'] ['a'] [], ⟨(goPct_zero_left 2).symm, Or.inl rfl⟩⟩,
    (C9_atomic_progress_consistency 2 ⟨['s'], 1, true, 2, false⟩ []
      freshP0 [['a'], ['b']] [['b'], ['a']] (List.Perm.swap ['b'] ['a'] [])
      ⟨(goPct_zero_left 2).symm, Or.inl rfl⟩).2.1⟩

end GCSSpec
